import Mathlib

/-!
Verification of the Grover amplitude-amplification core of `src/grover.py`.

The state of `k` qubit lines is a complex vector indexed by basis bit
strings; a bit string over `n` lines is a function `Fin n → Fin 2` (the
first line is the leftmost bit, matching `helper.bits2val`).  The full
experiment state carries one extra ancilla line, ordered last, so its
index type is `(Fin n → Fin 2) × Fin 2`.

Operators are dense complex matrices, composed by matrix multiplication
(`Compose(A, B)` applies `B` first) and by the Kronecker product
(`TensorProduct(A, B)` puts `A`'s lines before `B`'s), following the
interface contract of the external linear-algebra library.
-/

namespace QccGrover

/-- Basis bit strings over `n` qubit lines. -/
abbrev Bits (n : ℕ) : Type := Fin n → Fin 2

/-- The scalar `√2`, as a complex number. -/
noncomputable def sqrt2C : ℂ := ((Real.sqrt 2 : ℝ) : ℂ)

/-- Modelled from the spec: the single-line Hadamard operator
`Hadamard()` of the external library (`ops.Hadamard`, not under `src/`),
the 2×2 matrix `(1/√2)·[[1,1],[1,-1]]`. -/
noncomputable def H1 : Matrix (Fin 2) (Fin 2) ℂ :=
  fun i j => (-1) ^ (i.val * j.val) / sqrt2C

/-- Modelled from the spec: the `n`-line Hadamard operator `Hadamard(n)`
of the external library — the `n`-fold tensor power of `H1`, written in
the function basis (entry `(x, y)` is the product of the per-line
entries). -/
noncomputable def Hadamard (n : ℕ) : Matrix (Bits n) (Bits n) ℂ :=
  fun x y => ∏ i, H1 (x i) (y i)

/-- The zero projector of `grover.py` lines 54-56: an `N×N` matrix whose
only nonzero entry is a `1` at position `[0, 0]`. -/
noncomputable def op_zero (n : ℕ) : Matrix (Bits n) (Bits n) ℂ :=
  fun x y => if x = 0 ∧ y = 0 then 1 else 0

/-- `reflection = op_zero * 2.0 - ops.Identity(nbits)` (`grover.py` line 83). -/
noncomputable def reflection (n : ℕ) : Matrix (Bits n) (Bits n) ℂ :=
  (2 : ℂ) • op_zero n - 1

/-- The n-line diffusion operator `hn(reflection(hn))` of `grover.py`
line 84 (before the ancilla padding): `H⊗n · (2·P₀ − I) · H⊗n`. -/
noncomputable def diffusion (n : ℕ) : Matrix (Bits n) (Bits n) ℂ :=
  Hadamard n * (reflection n * Hadamard n)

/-- `inversion = hn(reflection(hn)) * ops.Identity()` (`grover.py` line
84): the diffusion operator tensor-padded with the single-line identity
over the ancilla line. -/
noncomputable def inversion (n : ℕ) :
    Matrix (Bits n × Fin 2) (Bits n × Fin 2) ℂ :=
  Matrix.kroneckerMap (· * ·) (diffusion n) (1 : Matrix (Fin 2) (Fin 2) ℂ)

/-- The basis-state permutation underlying the XOR oracle:
`(x, y) ↦ (x, y ⊕ f(x))` (addition in `Fin 2` is XOR). -/
def oracleShift (n : ℕ) (f : Bits n → Fin 2) :
    Bits n × Fin 2 → Bits n × Fin 2 :=
  fun p => (p.1, p.2 + f p.1)

/-- Modelled from the spec: `ops.OracleUf(nbits+1, f)` (not under
`src/`), the permutation matrix sending basis state `|x⟩⊗|y⟩` to
`|x⟩⊗|y ⊕ f(x)⟩` (spec §4.1). -/
noncomputable def OracleUf (n : ℕ) (f : Bits n → Fin 2) :
    Matrix (Bits n × Fin 2) (Bits n × Fin 2) ℂ :=
  fun p q => if p = oracleShift n f q then 1 else 0

/-- `grover = inversion(u)` (`grover.py` line 85): matrix composition
with the oracle applied to the state first. -/
noncomputable def grover (n : ℕ) (f : Bits n → Fin 2) :
    Matrix (Bits n × Fin 2) (Bits n × Fin 2) ℂ :=
  inversion n * OracleUf n f

/-- `iterations = int(math.pi / 4 * math.sqrt(n))` (`grover.py` line
102); `int` truncates, and the argument is nonnegative, so this is the
floor of `π/4 · √N`. -/
noncomputable def iterations (N : ℕ) : ℤ :=
  ⌊Real.pi / 4 * Real.sqrt N⌋

/-- The iteration count as a natural number (the loop bound of
`range(iterations)` in `grover.py` line 104). -/
noncomputable def iterationsNat (N : ℕ) : ℕ :=
  (iterations N).toNat

/-- The basis state `|a⟩`: the indicator vector of `a`. -/
noncomputable def basisState {α : Type*} [DecidableEq α] (a : α) : α → ℂ :=
  fun b => if b = a then 1 else 0

/-- `psi = state.zeros(nbits) * state.ones(1)` (`grover.py` line 74):
all-zero input lines tensored with a `|1⟩` ancilla (ancilla last). -/
noncomputable def psiInit (n : ℕ) : Bits n × Fin 2 → ℂ :=
  fun p => basisState (0 : Bits n) p.1 * basisState (1 : Fin 2) p.2

/-- Modelled from the spec: `ApplyToLine(state, op, i)` of the external
library for a non-ancilla line `i < n` — apply the single-line operator
`A` on line `i`, leaving every other line unchanged. -/
noncomputable def applyMain {n : ℕ} (A : Matrix (Fin 2) (Fin 2) ℂ) (i : Fin n)
    (ψ : Bits n × Fin 2 → ℂ) : Bits n × Fin 2 → ℂ :=
  fun p => ∑ b, A (p.1 i) b * ψ (Function.update p.1 i b, p.2)

/-- Modelled from the spec: `ApplyToLine(state, op, n)` of the external
library for the ancilla line (the last line). -/
noncomputable def applyAnc {n : ℕ} (A : Matrix (Fin 2) (Fin 2) ℂ)
    (ψ : Bits n × Fin 2 → ℂ) : Bits n × Fin 2 → ℂ :=
  fun p => ∑ b, A p.2 b * ψ (p.1, b)

/-- The initial superposition of `grover.py` lines 74-76: Hadamard
applied once per line, lines `0 .. n-1` first and the ancilla line
last. -/
noncomputable def psi0 (n : ℕ) : Bits n × Fin 2 → ℂ :=
  applyAnc H1 ((List.finRange n).foldl (fun s i => applyMain H1 i s) (psiInit n))

/-- The state after `k` passes of the amplification loop of `grover.py`
lines 104-105: `k` applications of the composite Grover operator. -/
noncomputable def psiAfter (n : ℕ) (f : Bits n → Fin 2) (k : ℕ) :
    Bits n × Fin 2 → ℂ :=
  (fun ψ => (grover n f).mulVec ψ)^[k] (psi0 n)

/-- The final state of one experiment run: the loop applied
`iterations` times with `N = 2^n`. -/
noncomputable def psiFinal (n : ℕ) (f : Bits n → Fin 2) :
    Bits n × Fin 2 → ℂ :=
  psiAfter n f (iterationsNat (2 ^ n))

/-- Probability of measuring basis state `p`: squared magnitude of its
amplitude. -/
noncomputable def prob {α : Type*} (ψ : α → ℂ) (p : α) : ℝ :=
  Complex.normSq (ψ p)

/-- Modelled from the spec: `psi.maxprob()` of the external library
returns a basis bit string of maximal probability; `IsMaxProb ψ w` says
`w` is such a string. -/
def IsMaxProb {α : Type*} [Fintype α] (ψ : α → ℂ) (w : α) : Prop :=
  ∀ q, prob ψ q ≤ prob ψ w

/-- `maxbits[:-1]` (`grover.py` line 114): strip the trailing ancilla
bit from a basis string of the full state. -/
def stripAncilla {n : ℕ} (p : Bits n × Fin 2) : Bits n := p.1

/-- The outcome check of `grover.py` lines 113-117: evaluate the
predicate on the ancilla-stripped winner and raise
`AssertionError('something went wrong, measured invalid state')` when
the result is not `1`. -/
def checkResult {n : ℕ} (f : Bits n → Fin 2) (maxbits : Bits n × Fin 2) :
    Except String Unit :=
  if f (stripAncilla maxbits) ≠ 1 then
    Except.error "something went wrong, measured invalid state"
  else Except.ok ()

/-- Probability of an `n`-bit string in the full state, aggregated over
the ancilla line. -/
noncomputable def stringProb {n : ℕ} (ψ : Bits n × Fin 2 → ℂ) (x : Bits n) : ℝ :=
  ∑ y, prob ψ (x, y)

/-- The claim's iteration-count formula `floor(π/4 · √N + 0.5)`
(round-to-nearest), stated for comparison with `iterations`. -/
noncomputable def specRound (N : ℕ) : ℤ :=
  ⌊Real.pi / 4 * Real.sqrt N + 1 / 2⌋

/-- Round-to-nearest of `π/4 · √N`, the first iteration-count
derivation quoted in `grover.py` lines 91-93. -/
noncomputable def roundA (N : ℕ) : ℤ :=
  round (Real.pi / 4 * Real.sqrt N)

/-- The second iteration-count derivation quoted in `grover.py` lines
95-98: `round(arccos(√(1/N)) / (2·arcsin(√(1/N))))`. -/
noncomputable def roundB (N : ℕ) : ℤ :=
  round (Real.arccos (Real.sqrt (1 / N)) / (2 * Real.arcsin (Real.sqrt (1 / N))))

/-- The single-qubit ancilla state `|−⟩ = H|1⟩`. -/
noncomputable def minusVec : Fin 2 → ℂ :=
  fun y => (-1) ^ y.val / sqrt2C

/-- The uniform superposition over `n` lines, `H⊗n |0…0⟩`. -/
noncomputable def uniformVec (n : ℕ) : Bits n → ℂ :=
  fun _ => (sqrt2C ^ n)⁻¹

/-- The phase-flip operator induced on the `n` search lines by the XOR
oracle acting on an ancilla in state `|−⟩`: the diagonal matrix with
entries `(−1)^f(x)`. -/
noncomputable def phaseFlip (n : ℕ) (f : Bits n → Fin 2) :
    Matrix (Bits n) (Bits n) ℂ :=
  Matrix.diagonal fun x => (-1) ^ (f x).val

/-- The `n`-line factor of the loop state: `k` applications of the
effective iterate `D · S_f` to the uniform superposition. -/
noncomputable def phiIter (n : ℕ) (f : Bits n → Fin 2) (k : ℕ) :
    Bits n → ℂ :=
  (fun φ => (diffusion n * phaseFlip n f).mulVec φ)^[k] (uniformVec n)

/-- A pure tensor-product state: per-line single-qubit factors `g i` on
the `n` search lines and `anc` on the ancilla line. -/
noncomputable def prodState {n : ℕ} (g : Fin n → Fin 2 → ℂ)
    (anc : Fin 2 → ℂ) : Bits n × Fin 2 → ℂ :=
  fun p => (∏ i, g i (p.1 i)) * anc p.2

/-- The predicate built by `make_f` (`grover.py` lines 14-29) once the
random marked value `m` is fixed: `answers[bits2val(bits)]`, which is
`1` exactly on the marked bit string. -/
def markedF {n : ℕ} (m : Bits n) : Bits n → Fin 2 :=
  fun x => if x = m then 1 else 0

/-- The concrete marked bit string `101` (value 5) of the spec's `n = 3`
scenario. -/
def m5 : Bits 3 := ![1, 0, 1]

/-- One step of the exact rational two-value recurrence followed by the
marked and unmarked amplitudes (scaled by `√N`) under one Grover
iteration: inversion about the mean after the phase flip. -/
def abStep (N : ℚ) (p : ℚ × ℚ) : ℚ × ℚ :=
  (2 * (((N - 1) * p.2 - p.1) / N) + p.1,
   2 * (((N - 1) * p.2 - p.1) / N) - p.2)

/-- The two-value amplitude pair after `k` Grover iterations, starting
from the uniform pair `(1, 1)`. -/
def abIter (N : ℚ) : ℕ → ℚ × ℚ
  | 0 => (1, 1)
  | k + 1 => abStep N (abIter N k)

/-- The Grover half-rotation angle `α = arcsin(1/√N)` for `N = 2^n`. -/
noncomputable def alpha (n : ℕ) : ℝ := Real.arcsin (Real.sqrt (2 ^ n))⁻¹

lemma sqrt2C_mul_self : sqrt2C * sqrt2C = 2 := by
  have h : Real.sqrt 2 * Real.sqrt 2 = 2 := Real.mul_self_sqrt (by norm_num)
  unfold sqrt2C
  rw [← Complex.ofReal_mul, h]
  norm_num

lemma sqrt2C_ne_zero : sqrt2C ≠ 0 := by
  unfold sqrt2C
  rw [Complex.ofReal_ne_zero]
  positivity

lemma H1_mul_H1 : H1 * H1 = 1 := by
  have h2 := sqrt2C_mul_self
  have h0 := sqrt2C_ne_zero
  ext i j
  fin_cases i <;> fin_cases j <;>
    simp [H1, Matrix.mul_apply, Fin.sum_univ_two, Matrix.one_apply] <;>
    field_simp <;> linear_combination -h2

lemma sum_pi_prod {n : ℕ} (g : Fin n → Fin 2 → ℂ) :
    ∑ y : Bits n, ∏ i, g i (y i) = ∏ i, ∑ b, g i b := by
  rw [Finset.prod_univ_sum (fun _ : Fin n => (Finset.univ : Finset (Fin 2))) g]
  rw [Fintype.piFinset_univ]

lemma prod_ite_eq_ite {n : ℕ} (x z : Bits n) :
    (∏ i, if x i = z i then (1 : ℂ) else 0) = if x = z then 1 else 0 := by
  by_cases h : x = z
  · subst h; simp
  · simp only [if_neg h]
    obtain ⟨i, hi⟩ := Function.ne_iff.mp h
    exact Finset.prod_eq_zero (Finset.mem_univ i) (by simp [hi])

lemma Hadamard_mul_Hadamard (n : ℕ) : Hadamard n * Hadamard n = 1 := by
  ext x z
  rw [Matrix.mul_apply]
  calc ∑ y : Bits n, Hadamard n x y * Hadamard n y z
      = ∑ y : Bits n, ∏ i, (H1 (x i) (y i) * H1 (y i) (z i)) := by
        refine Finset.sum_congr rfl fun y _ => ?_
        simp only [Hadamard, ← Finset.prod_mul_distrib]
    _ = ∏ i, ∑ b, H1 (x i) b * H1 b (z i) :=
        sum_pi_prod (fun i b => H1 (x i) b * H1 b (z i))
    _ = ∏ i, (H1 * H1) (x i) (z i) := by
        simp only [Matrix.mul_apply]
    _ = (1 : Matrix (Bits n) (Bits n) ℂ) x z := by
        rw [H1_mul_H1, Matrix.one_apply]
        simpa [Matrix.one_apply] using prod_ite_eq_ite x z

lemma Hadamard_apply_zero {n : ℕ} (x : Bits n) :
    Hadamard n x 0 = (sqrt2C ^ n)⁻¹ := by
  unfold Hadamard
  have h : ∀ i, H1 (x i) ((0 : Bits n) i) = sqrt2C⁻¹ := by
    intro i
    simp [H1, one_div]
  rw [Finset.prod_congr rfl (fun i _ => h i)]
  simp [inv_pow]

lemma Hadamard_zero_apply {n : ℕ} (z : Bits n) :
    Hadamard n 0 z = (sqrt2C ^ n)⁻¹ := by
  unfold Hadamard
  have h : ∀ i, H1 ((0 : Bits n) i) (z i) = sqrt2C⁻¹ := by
    intro i
    simp [H1, one_div]
  rw [Finset.prod_congr rfl (fun i _ => h i)]
  simp [inv_pow]

lemma H_opzero_H_apply {n : ℕ} (x z : Bits n) :
    (Hadamard n * (op_zero n * Hadamard n)) x z = ((2 : ℂ) ^ n)⁻¹ := by
  have hmid : ∀ a : Bits n, (op_zero n * Hadamard n) a z
      = if a = 0 then (sqrt2C ^ n)⁻¹ else 0 := by
    intro a
    rw [Matrix.mul_apply]
    simp only [op_zero, ite_and]
    by_cases ha : a = 0
    · simp [ha, Hadamard_zero_apply]
    · simp [ha]
  rw [Matrix.mul_apply]
  simp only [hmid, mul_ite, mul_zero, Finset.sum_ite_eq', Finset.mem_univ, if_true]
  rw [Hadamard_apply_zero]
  rw [← mul_inv, ← mul_pow, sqrt2C_mul_self]

lemma diffusion_eq (n : ℕ) :
    diffusion n = (2 : ℂ) • (Hadamard n * (op_zero n * Hadamard n)) - 1 := by
  unfold diffusion reflection
  rw [Matrix.sub_mul, Matrix.mul_sub, Matrix.one_mul, Hadamard_mul_Hadamard,
    Matrix.smul_mul, Matrix.mul_smul]

lemma diffusion_mulVec (n : ℕ) (c : Bits n → ℂ) (x : Bits n) :
    (diffusion n).mulVec c x = 2 * ((∑ y, c y) / 2 ^ n) - c x := by
  rw [diffusion_eq]
  rw [Matrix.sub_mulVec, Matrix.one_mulVec]
  have h : ((2 : ℂ) • (Hadamard n * (op_zero n * Hadamard n))).mulVec c x
      = 2 * ((∑ y, c y) / 2 ^ n) := by
    rw [Matrix.smul_mulVec_assoc]
    simp only [Pi.smul_apply, smul_eq_mul]
    congr 1
    rw [Matrix.mulVec, Matrix.dotProduct]
    simp only [H_opzero_H_apply]
    rw [← Finset.mul_sum, inv_mul_eq_div]
  simp [h]

/-- C2: the diffusion operator built as `H⊗n · (2·P₀ − I) · H⊗n` performs
exact inversion about the mean: for every complex vector `c` of length
`2^n` and every component index `x`, the `x`-th component of `D·c` is
`2·mean(c) − c_x`. -/
theorem claim_C2 (n : ℕ) (c : Bits n → ℂ) (x : Bits n) :
    (diffusion n).mulVec c x = 2 * ((∑ y, c y) / 2 ^ n) - c x :=
  diffusion_mulVec n c x

/-- C6: the outcome selector strips the trailing ancilla bit from the
maximum-probability basis string before evaluating the predicate, and
it fails with the assertion-style error exactly when the predicate is
not `1` on the stripped winner; on a winner whose predicate value is
`1` it returns normally. -/
theorem claim_C6 {n : ℕ} (f : Bits n → Fin 2) (w : Bits n × Fin 2) :
    ((checkResult f w
        = Except.error "something went wrong, measured invalid state")
      ↔ f (stripAncilla w) ≠ 1)
    ∧ (checkResult f w = Except.ok () ↔ f (stripAncilla w) = 1) := by
  unfold checkResult
  by_cases h : f (stripAncilla w) = 1 <;> simp [h]

/-- C8: for the edge case `N = 1` (`n = 0`), the iteration scheduler
returns `r = 0`; the computation is total (no division occurs, no error
path exists). -/
theorem claim_C8 : iterations 1 = 0 ∧ iterationsNat 1 = 0 := by
  have hval : Real.pi / 4 * Real.sqrt ((1 : ℕ) : ℝ) = Real.pi / 4 := by
    rw [Nat.cast_one, Real.sqrt_one, mul_one]
  have hfloor : iterations 1 = 0 := by
    unfold iterations
    rw [hval]
    rw [Int.floor_eq_zero_iff]
    constructor
    · positivity
    · have := Real.pi_lt_four
      linarith
  refine ⟨hfloor, ?_⟩
  unfold iterationsNat
  rw [hfloor]
  rfl

lemma fin2_add_self (b : Fin 2) : b + b = 0 := by
  fin_cases b <;> rfl

lemma oracleShift_involutive (n : ℕ) (f : Bits n → Fin 2) :
    Function.Involutive (oracleShift n f) := by
  intro p
  unfold oracleShift
  simp only
  rw [add_assoc, fin2_add_self, add_zero]

/-- C4: the composite Grover iterate equals `(D ⊗ I) · Oracle`: the
n-line diffusion operator is tensor-padded with the one-line identity
over the ancilla, and in the composition the oracle acts on the state
first and the padded diffusion second. -/
theorem claim_C4 (n : ℕ) (f : Bits n → Fin 2) :
    grover n f
      = Matrix.kroneckerMap (· * ·) (diffusion n)
          (1 : Matrix (Fin 2) (Fin 2) ℂ) * OracleUf n f
    ∧ (∀ x y x' y', inversion n (x, y) (x', y')
        = diffusion n x x' * (if y = y' then 1 else 0))
    ∧ ∀ v, (grover n f).mulVec v
        = (inversion n).mulVec ((OracleUf n f).mulVec v) := by
  refine ⟨rfl, ?_, ?_⟩
  · intro x y x' y'
    simp [inversion, Matrix.kroneckerMap_apply, Matrix.one_apply]
  · intro v
    rw [grover, Matrix.mulVec_mulVec]

/-- C5: the oracle built for a predicate `f` maps every basis state
`|x⟩⊗|y⟩` to `|x⟩⊗|y ⊕ f(x)⟩`, and it is exactly unitary:
`Oracle† · Oracle = I`. -/
theorem claim_C5 (n : ℕ) (f : Bits n → Fin 2) :
    (∀ (x : Bits n) (y : Fin 2),
        (OracleUf n f).mulVec (basisState (x, y)) = basisState (x, y + f x))
    ∧ (OracleUf n f).conjTranspose * OracleUf n f = 1 := by
  constructor
  · intro x y
    funext p
    simp only [OracleUf, basisState, Matrix.mulVec, Matrix.dotProduct,
      mul_ite, mul_one, mul_zero, Finset.sum_ite_eq', Finset.mem_univ,
      if_true]
    have hshift : oracleShift n f (x, y) = (x, y + f x) := rfl
    rw [hshift]
  · ext p q
    rw [Matrix.mul_apply, Matrix.one_apply]
    simp only [Matrix.conjTranspose_apply, OracleUf,
      apply_ite (star : ℂ → ℂ), star_one, star_zero, ite_mul, one_mul,
      zero_mul, Finset.sum_ite_eq', Finset.mem_univ, if_true]
    by_cases h : p = q
    · subst h; simp
    · rw [if_neg, if_neg h]
      exact fun hc => h ((oracleShift_involutive n f).injective hc)

lemma diffusion_zero_qubits : diffusion 0 = 1 := by
  have huniq : ∀ x z : Bits 0, x = z := fun x z => Subsingleton.elim x z
  ext x z
  rw [diffusion_eq]
  simp only [Matrix.sub_apply, Matrix.smul_apply, H_opzero_H_apply,
    pow_zero, inv_one, smul_eq_mul, mul_one, Matrix.one_apply,
    if_pos (huniq x z)]
  norm_num

/-- C9 counterexample: invoked with `n = 0`, the diffusion construction
does not fail: it builds a well-defined operator, namely the 1×1
identity. -/
theorem claim_C9_counterexample : diffusion 0 = 1 :=
  diffusion_zero_qubits

/-- C9 (amended): the diffusion construction performs no validation of
`n`; at `n = 0` every stage succeeds — the reflection `2·P₀ − I` is the
1×1 identity, and the built diffusion operator acts as the identity on
every vector. -/
theorem claim_C9_amended :
    reflection 0 = 1
    ∧ ∀ c : Bits 0 → ℂ, (diffusion 0).mulVec c = c := by
  constructor
  · ext x z
    have hx0 : x = 0 := Subsingleton.elim x 0
    have hz0 : z = 0 := Subsingleton.elim z 0
    subst hx0; subst hz0
    simp [reflection, op_zero, Matrix.one_apply]
    norm_num
  · intro c
    rw [diffusion_zero_qubits, Matrix.one_mulVec]

lemma kron_mulVec {α β : Type*} [Fintype α] [Fintype β]
    (A : Matrix α α ℂ) (B : Matrix β β ℂ) (v : α → ℂ) (w : β → ℂ) :
    (Matrix.kroneckerMap (· * ·) A B).mulVec (fun p => v p.1 * w p.2)
      = fun p => A.mulVec v p.1 * B.mulVec w p.2 := by
  funext p
  simp only [Matrix.mulVec, Matrix.dotProduct, Matrix.kroneckerMap_apply]
  rw [Fintype.sum_prod_type, Finset.sum_mul_sum]
  refine Finset.sum_congr rfl fun a _ => Finset.sum_congr rfl fun b _ => ?_
  ring

lemma minusVec_add (y b : Fin 2) :
    minusVec (y + b) = (-1) ^ b.val * minusVec y := by
  fin_cases y <;> fin_cases b <;> simp [minusVec] <;> ring

lemma oracle_mulVec_minus {n : ℕ} (f : Bits n → Fin 2) (φ : Bits n → ℂ) :
    (OracleUf n f).mulVec (fun p => φ p.1 * minusVec p.2)
      = fun p => (phaseFlip n f).mulVec φ p.1 * minusVec p.2 := by
  funext p
  have hiff : ∀ q, (p = oracleShift n f q) ↔ (q = oracleShift n f p) := by
    intro q
    constructor
    · intro h
      rw [h, oracleShift_involutive n f q]
    · intro h
      rw [h, oracleShift_involutive n f p]
  simp only [Matrix.mulVec, Matrix.dotProduct, OracleUf, ite_mul, one_mul,
    zero_mul]
  have hrw : ∀ q : Bits n × Fin 2,
      (if p = oracleShift n f q then φ q.1 * minusVec q.2 else 0)
        = (if q = oracleShift n f p then φ q.1 * minusVec q.2 else 0) := by
    intro q
    by_cases h : p = oracleShift n f q
    · rw [if_pos h, if_pos ((hiff q).mp h)]
    · rw [if_neg h, if_neg fun hc => h ((hiff q).mpr hc)]
  rw [Finset.sum_congr rfl fun q _ => hrw q]
  rw [Finset.sum_ite_eq' Finset.univ (oracleShift n f p)
    (fun q => φ q.1 * minusVec q.2)]
  rw [if_pos (Finset.mem_univ _)]
  have hfst : (oracleShift n f p).1 = p.1 := rfl
  have hsnd : (oracleShift n f p).2 = p.2 + f p.1 := rfl
  rw [hfst, hsnd, minusVec_add]
  have hdiag : (∑ x, phaseFlip n f p.1 x * φ x)
      = (-1) ^ (f p.1).val * φ p.1 := by
    simp [phaseFlip, Matrix.diagonal_apply, ite_mul, zero_mul,
      Finset.sum_ite_eq, Finset.mem_univ]
  rw [hdiag]
  ring

lemma grover_mulVec_minus {n : ℕ} (f : Bits n → Fin 2) (φ : Bits n → ℂ) :
    (grover n f).mulVec (fun p => φ p.1 * minusVec p.2)
      = fun p => (diffusion n * phaseFlip n f).mulVec φ p.1 * minusVec p.2 := by
  rw [grover, ← Matrix.mulVec_mulVec, oracle_mulVec_minus]
  rw [show inversion n
      = Matrix.kroneckerMap (· * ·) (diffusion n)
          (1 : Matrix (Fin 2) (Fin 2) ℂ) from rfl]
  rw [kron_mulVec, Matrix.one_mulVec]
  funext p
  rw [Matrix.mulVec_mulVec]

lemma psiInit_eq_prodState (n : ℕ) :
    psiInit n = prodState (fun _ => basisState 0) (basisState 1) := by
  funext p
  simp only [psiInit, prodState]
  congr 1
  simpa [basisState] using (prod_ite_eq_ite p.1 0).symm

lemma applyMain_prodState {n : ℕ} (A : Matrix (Fin 2) (Fin 2) ℂ) (i : Fin n)
    (g : Fin n → Fin 2 → ℂ) (anc : Fin 2 → ℂ) :
    applyMain A i (prodState g anc)
      = prodState (Function.update g i (fun b => ∑ c, A b c * g i c)) anc := by
  funext p
  simp only [applyMain, prodState]
  have hsplit : ∀ b : Fin 2, (∏ j, g j (Function.update p.1 i b j))
      = g i b * ∏ j ∈ Finset.univ.erase i, g j (p.1 j) := by
    intro b
    rw [← Finset.mul_prod_erase Finset.univ _ (Finset.mem_univ i),
      Function.update_same]
    congr 1
    refine Finset.prod_congr rfl fun j hj => ?_
    rw [Function.update_noteq (Finset.ne_of_mem_erase hj)]
  have hsplit2 : (∏ j, Function.update g i (fun b => ∑ c, A b c * g i c) j (p.1 j))
      = (∑ c, A (p.1 i) c * g i c) * ∏ j ∈ Finset.univ.erase i, g j (p.1 j) := by
    rw [← Finset.mul_prod_erase Finset.univ _ (Finset.mem_univ i),
      Function.update_same]
    congr 1
    refine Finset.prod_congr rfl fun j hj => ?_
    rw [Function.update_noteq (Finset.ne_of_mem_erase hj)]
  rw [hsplit2]
  rw [Finset.sum_congr rfl fun b _ => by rw [hsplit b]]
  rw [Finset.sum_mul, Finset.sum_mul]
  exact Finset.sum_congr rfl fun b _ => by ring

lemma applyAnc_prodState {n : ℕ} (A : Matrix (Fin 2) (Fin 2) ℂ)
    (g : Fin n → Fin 2 → ℂ) (anc : Fin 2 → ℂ) :
    applyAnc A (prodState g anc)
      = prodState g (fun y => ∑ b, A y b * anc b) := by
  funext p
  simp only [applyAnc, prodState]
  rw [Finset.mul_sum]
  refine Finset.sum_congr rfl fun b _ => ?_
  ring

lemma foldl_applyMain_prodState {n : ℕ} (A : Matrix (Fin 2) (Fin 2) ℂ)
    (l : List (Fin n)) (g : Fin n → Fin 2 → ℂ) (anc : Fin 2 → ℂ) :
    l.foldl (fun s i => applyMain A i s) (prodState g anc)
      = prodState
          (l.foldl (fun (g : Fin n → Fin 2 → ℂ) i =>
            Function.update g i (fun b => ∑ c, A b c * g i c)) g) anc := by
  induction l generalizing g with
  | nil => rfl
  | cons i tl ih =>
    simp only [List.foldl_cons]
    rw [applyMain_prodState, ih]

lemma foldl_update_eval {n : ℕ} (A : Matrix (Fin 2) (Fin 2) ℂ)
    (l : List (Fin n)) (hl : l.Nodup) (g : Fin n → Fin 2 → ℂ) (j : Fin n) :
    (l.foldl (fun (g : Fin n → Fin 2 → ℂ) i =>
        Function.update g i (fun b => ∑ c, A b c * g i c)) g) j
      = if j ∈ l then (fun b => ∑ c, A b c * g j c) else g j := by
  induction l generalizing g with
  | nil => simp
  | cons i tl ih =>
    rw [List.nodup_cons] at hl
    simp only [List.foldl_cons]
    rw [ih hl.2]
    by_cases hj : j ∈ tl
    · have hji : j ≠ i := fun h => hl.1 (h ▸ hj)
      rw [if_pos hj, if_pos (List.mem_cons_of_mem i hj),
        Function.update_noteq hji]
    · rw [if_neg hj]
      by_cases hji : j = i
      · subst hji
        rw [Function.update_same, if_pos (List.mem_cons_self j tl)]
      · rw [Function.update_noteq hji,
          if_neg (by simp [List.mem_cons, hji, hj])]

lemma psi0_eq (n : ℕ) :
    psi0 n = fun p => uniformVec n p.1 * minusVec p.2 := by
  unfold psi0
  rw [psiInit_eq_prodState, foldl_applyMain_prodState, applyAnc_prodState]
  funext p
  simp only [prodState]
  have hg : ∀ j : Fin n,
      ((List.finRange n).foldl (fun (g : Fin n → Fin 2 → ℂ) i =>
          Function.update g i (fun b => ∑ c, H1 b c * g i c))
        (fun _ => basisState (0 : Fin 2))) j (p.1 j)
      = sqrt2C⁻¹ := by
    intro j
    rw [foldl_update_eval H1 _ (List.nodup_finRange n)
      (fun _ => basisState (0 : Fin 2)) j]
    rw [if_pos (List.mem_finRange j)]
    simp [basisState, H1, one_div]
  have hanc : (∑ b, H1 p.2 b * basisState (1 : Fin 2) b) = minusVec p.2 := by
    simp [basisState, H1, minusVec, Fin.sum_univ_two]
  rw [Finset.prod_congr rfl fun j _ => hg j, hanc, Finset.prod_const,
    Finset.card_univ, Fintype.card_fin]
  rw [show (sqrt2C⁻¹ : ℂ) ^ n = (sqrt2C ^ n)⁻¹ from inv_pow sqrt2C n]
  rfl

lemma psiAfter_factor (n : ℕ) (f : Bits n → Fin 2) (k : ℕ) :
    psiAfter n f k = fun p => phiIter n f k p.1 * minusVec p.2 := by
  induction k with
  | zero =>
    unfold psiAfter phiIter
    simpa using psi0_eq n
  | succ k ih =>
    unfold psiAfter phiIter
    rw [Function.iterate_succ_apply', Function.iterate_succ_apply']
    have ih' : (fun ψ => (grover n f).mulVec ψ)^[k] (psi0 n)
        = fun p => phiIter n f k p.1 * minusVec p.2 := ih
    rw [ih', grover_mulVec_minus]
    rfl

/-- C10: with every line (ancilla included) Hadamard-transformed before
the loop and each Grover iterate equal to `(D ⊗ I) · Oracle`, the state
after every iteration of the amplification loop factorizes as an
`n`-qubit state tensored with the unchanged ancilla state `|−⟩`. -/
theorem claim_C10 (n : ℕ) (f : Bits n → Fin 2) (k : ℕ) :
    psiAfter n f k = fun p => phiIter n f k p.1 * minusVec p.2 :=
  psiAfter_factor n f k

lemma sqrt2_lb : (1.4142 : ℝ) < Real.sqrt 2 :=
  (Real.lt_sqrt (by norm_num)).mpr (by norm_num)

lemma sqrt2_ub : Real.sqrt 2 < 1.4143 :=
  (Real.sqrt_lt' (by norm_num)).mpr (by norm_num)

lemma sqrt_four : Real.sqrt 4 = 2 := by
  rw [show (4 : ℝ) = 2 ^ 2 by norm_num, Real.sqrt_sq (by norm_num)]

lemma sqrt_eight : Real.sqrt 8 = 2 * Real.sqrt 2 := by
  rw [show (8 : ℝ) = 4 * 2 by norm_num,
    Real.sqrt_mul (by norm_num : (0:ℝ) ≤ 4), sqrt_four]

lemma sqrt_sixteen : Real.sqrt 16 = 4 := by
  rw [show (16 : ℝ) = 4 ^ 2 by norm_num, Real.sqrt_sq (by norm_num)]

lemma sqrt_thirtytwo : Real.sqrt 32 = 4 * Real.sqrt 2 := by
  rw [show (32 : ℝ) = 16 * 2 by norm_num,
    Real.sqrt_mul (by norm_num : (0:ℝ) ≤ 16), sqrt_sixteen]

lemma sqrt_sixtyfour : Real.sqrt 64 = 8 := by
  rw [show (64 : ℝ) = 8 ^ 2 by norm_num, Real.sqrt_sq (by norm_num)]

lemma sqrt_onetwentyeight : Real.sqrt 128 = 8 * Real.sqrt 2 := by
  rw [show (128 : ℝ) = 64 * 2 by norm_num,
    Real.sqrt_mul (by norm_num : (0:ℝ) ≤ 64), sqrt_sixtyfour]

lemma floor_eq_of_bounds (r : ℝ) (z : ℤ) (h1 : (z : ℝ) ≤ r)
    (h2 : r < z + 1) : ⌊r⌋ = z :=
  Int.floor_eq_iff.mpr ⟨h1, h2⟩

lemma iterations_two : iterations 2 = 1 := by
  unfold iterations
  rw [show (((2:ℕ)):ℝ) = (2:ℝ) by norm_num]
  have h1 := sqrt2_lb
  have h2 := sqrt2_ub
  have h3 := Real.pi_gt_d4
  have h4 := Real.pi_lt_d4
  apply floor_eq_of_bounds _ 1 (by nlinarith) (by nlinarith)

lemma iterations_four : iterations 4 = 1 := by
  unfold iterations
  rw [show (((4:ℕ)):ℝ) = (4:ℝ) by norm_num, sqrt_four]
  have h3 := Real.pi_gt_d4
  have h4 := Real.pi_lt_d4
  apply floor_eq_of_bounds _ 1 (by nlinarith) (by nlinarith)

lemma iterations_eight : iterations 8 = 2 := by
  unfold iterations
  rw [show (((8:ℕ)):ℝ) = (8:ℝ) by norm_num, sqrt_eight]
  have h1 := sqrt2_lb
  have h2 := sqrt2_ub
  have h3 := Real.pi_gt_d4
  have h4 := Real.pi_lt_d4
  apply floor_eq_of_bounds _ 2 (by nlinarith) (by nlinarith)

lemma iterations_sixteen : iterations 16 = 3 := by
  unfold iterations
  rw [show (((16:ℕ)):ℝ) = (16:ℝ) by norm_num, sqrt_sixteen]
  have h3 := Real.pi_gt_d4
  have h4 := Real.pi_lt_d4
  apply floor_eq_of_bounds _ 3 (by nlinarith) (by nlinarith)

lemma iterations_thirtytwo : iterations 32 = 4 := by
  unfold iterations
  rw [show (((32:ℕ)):ℝ) = (32:ℝ) by norm_num, sqrt_thirtytwo]
  have h1 := sqrt2_lb
  have h2 := sqrt2_ub
  have h3 := Real.pi_gt_d4
  have h4 := Real.pi_lt_d4
  apply floor_eq_of_bounds _ 4 (by nlinarith) (by nlinarith)

lemma iterations_sixtyfour : iterations 64 = 6 := by
  unfold iterations
  rw [show (((64:ℕ)):ℝ) = (64:ℝ) by norm_num, sqrt_sixtyfour]
  have h3 := Real.pi_gt_d4
  have h4 := Real.pi_lt_d4
  apply floor_eq_of_bounds _ 6 (by nlinarith) (by nlinarith)

lemma iterations_onetwentyeight : iterations 128 = 8 := by
  unfold iterations
  rw [show (((128:ℕ)):ℝ) = (128:ℝ) by norm_num, sqrt_onetwentyeight]
  have h1 := sqrt2_lb
  have h2 := sqrt2_ub
  have h3 := Real.pi_gt_d4
  have h4 := Real.pi_lt_d4
  apply floor_eq_of_bounds _ 8 (by nlinarith) (by nlinarith)

lemma specRound_four : specRound 4 = 2 := by
  unfold specRound
  rw [show (((4:ℕ)):ℝ) = (4:ℝ) by norm_num, sqrt_four]
  have h3 := Real.pi_gt_d4
  have h4 := Real.pi_lt_d4
  apply floor_eq_of_bounds _ 2 (by nlinarith) (by nlinarith)

/-- C3 counterexample: the iteration scheduler truncates rather than
rounding to nearest; at `N = 4` the code computes `1` while
`floor(π/4·√N + 0.5)` is `2`. -/
theorem claim_C3_counterexample :
    iterations 4 = 1 ∧ specRound 4 = 2 ∧ iterations 4 ≠ specRound 4 := by
  refine ⟨iterations_four, specRound_four, ?_⟩
  rw [iterations_four, specRound_four]
  decide

/-- C3 (amended): for every search-space size `N = 2^n` the iteration
scheduler returns the truncation `floor(π/4 · √N)`; over the sizes
`N = 1, 2, 4, 8, 16, 32, 64, 128` this yields `0, 1, 1, 2, 3, 4, 6, 8`
(differing from round-to-nearest at `N = 4` and `N = 128`). -/
theorem claim_C3_amended :
    iterations 1 = 0 ∧ iterations 2 = 1 ∧ iterations 4 = 1
    ∧ iterations 8 = 2 ∧ iterations 16 = 3 ∧ iterations 32 = 4
    ∧ iterations 64 = 6 ∧ iterations 128 = 8 := by
  have h1 : iterations 1 = 0 := by
    unfold iterations
    rw [show (((1:ℕ)):ℝ) = (1:ℝ) by norm_num, Real.sqrt_one]
    have h3 := Real.pi_gt_d4
    have h4 := Real.pi_lt_d4
    apply floor_eq_of_bounds _ 0 (by nlinarith) (by nlinarith)
  exact ⟨h1, iterations_two, iterations_four, iterations_eight,
    iterations_sixteen, iterations_thirtytwo, iterations_sixtyfour,
    iterations_onetwentyeight⟩

lemma roundA_four : roundA 4 = 2 := by
  unfold roundA
  rw [round_eq, show (((4:ℕ)):ℝ) = (4:ℝ) by norm_num, sqrt_four]
  have h3 := Real.pi_gt_d4
  have h4 := Real.pi_lt_d4
  apply floor_eq_of_bounds _ 2 (by nlinarith) (by nlinarith)

lemma roundA_eight : roundA 8 = 2 := by
  unfold roundA
  rw [round_eq, show (((8:ℕ)):ℝ) = (8:ℝ) by norm_num, sqrt_eight]
  have h1 := sqrt2_lb
  have h2 := sqrt2_ub
  have h3 := Real.pi_gt_d4
  have h4 := Real.pi_lt_d4
  apply floor_eq_of_bounds _ 2 (by nlinarith) (by nlinarith)

lemma roundA_sixteen : roundA 16 = 3 := by
  unfold roundA
  rw [round_eq, show (((16:ℕ)):ℝ) = (16:ℝ) by norm_num, sqrt_sixteen]
  have h3 := Real.pi_gt_d4
  have h4 := Real.pi_lt_d4
  apply floor_eq_of_bounds _ 3 (by nlinarith) (by nlinarith)

lemma roundA_thirtytwo : roundA 32 = 4 := by
  unfold roundA
  rw [round_eq, show (((32:ℕ)):ℝ) = (32:ℝ) by norm_num, sqrt_thirtytwo]
  have h1 := sqrt2_lb
  have h2 := sqrt2_ub
  have h3 := Real.pi_gt_d4
  have h4 := Real.pi_lt_d4
  apply floor_eq_of_bounds _ 4 (by nlinarith) (by nlinarith)

lemma roundA_sixtyfour : roundA 64 = 6 := by
  unfold roundA
  rw [round_eq, show (((64:ℕ)):ℝ) = (64:ℝ) by norm_num, sqrt_sixtyfour]
  have h3 := Real.pi_gt_d4
  have h4 := Real.pi_lt_d4
  apply floor_eq_of_bounds _ 6 (by nlinarith) (by nlinarith)

lemma roundA_onetwentyeight : roundA 128 = 9 := by
  unfold roundA
  rw [round_eq, show (((128:ℕ)):ℝ) = (128:ℝ) by norm_num,
    sqrt_onetwentyeight]
  have h1 := sqrt2_lb
  have h2 := sqrt2_ub
  have h3 := Real.pi_gt_d4
  have h4 := Real.pi_lt_d4
  apply floor_eq_of_bounds _ 9 (by nlinarith) (by nlinarith)

lemma sqrt_le_of_le_sq {a c : ℝ} (hc : 0 ≤ c) (h : a ≤ c ^ 2) :
    Real.sqrt a ≤ c := by
  calc Real.sqrt a ≤ Real.sqrt (c ^ 2) := Real.sqrt_le_sqrt h
    _ = c := Real.sqrt_sq hc

lemma le_sin_of_le_mul {x c q : ℝ} (hx0 : 0 < x) (hx1 : x ≤ 1)
    (hq : x ^ 2 ≤ q) (hc : c ≤ x * (1 - q / 4)) : c ≤ Real.sin x := by
  have hgt := Real.sin_gt_sub_cube hx0 hx1
  nlinarith [hx0.le]

lemma sin_lt_sqrt {x a : ℝ} (hx0 : 0 < x) (ha : 0 ≤ a) (h : x ^ 2 < a) :
    Real.sin x < Real.sqrt a :=
  lt_of_lt_of_le (Real.sin_lt hx0) ((Real.le_sqrt hx0.le ha).mpr h.le)

lemma roundB_eq_of (N : ℕ) (k : ℕ) (hN : 1 ≤ N) (hk : 1 ≤ k)
    (h1 : Real.sqrt (1 / (N : ℝ)) ≤ Real.sin (Real.pi / (4 * k)))
    (h2 : Real.sin (Real.pi / (4 * (k + 1))) < Real.sqrt (1 / (N : ℝ))) :
    roundB N = k := by
  have hπ := Real.pi_pos
  have hNpos : (0 : ℝ) < (N : ℝ) := by
    exact_mod_cast Nat.pos_of_ne_zero (by omega)
  have hkpos : (0 : ℝ) < (k : ℝ) := by
    have : (1 : ℝ) ≤ (k : ℝ) := by exact_mod_cast hk
    linarith
  have hk1 : (1 : ℝ) ≤ (k : ℝ) := by exact_mod_cast hk
  have hx0 : (0 : ℝ) < Real.sqrt (1 / (N : ℝ)) := by
    rw [Real.sqrt_pos]
    positivity
  have hx1 : Real.sqrt (1 / (N : ℝ)) ≤ 1 := by
    apply sqrt_le_of_le_sq (by norm_num)
    rw [one_pow, div_le_one hNpos]
    exact_mod_cast hN
  have hxIcc : Real.sqrt (1 / (N : ℝ)) ∈ Set.Icc (-1 : ℝ) 1 :=
    ⟨by linarith, hx1⟩
  have hyIcc : Real.pi / (4 * (k : ℝ)) ∈
      Set.Icc (-(Real.pi / 2)) (Real.pi / 2) := by
    constructor
    · have : (0 : ℝ) < Real.pi / (4 * (k : ℝ)) := by positivity
      linarith
    · rw [div_le_div_iff (by positivity) (by norm_num)]
      nlinarith
  have hy1Icc : Real.pi / (4 * ((k : ℝ) + 1)) ∈
      Set.Icc (-(Real.pi / 2)) (Real.pi / 2) := by
    constructor
    · have : (0 : ℝ) < Real.pi / (4 * ((k : ℝ) + 1)) := by positivity
      linarith
    · rw [div_le_div_iff (by positivity) (by norm_num)]
      nlinarith
  set x := Real.sqrt (1 / (N : ℝ)) with hxdef
  set s := Real.arcsin x with hsdef
  have hs_pos : 0 < s := Real.arcsin_pos.mpr hx0
  have hsu : s ≤ Real.pi / (4 * (k : ℝ)) :=
    (Real.arcsin_le_iff_le_sin hxIcc hyIcc).mpr h1
  have hsl : Real.pi / (4 * ((k : ℝ) + 1)) < s := by
    rcases lt_or_le (Real.pi / (4 * ((k : ℝ) + 1))) s with h | h
    · exact h
    · exfalso
      have hle : s ≤ Real.pi / (4 * ((k : ℝ) + 1)) := h
      have := (Real.arcsin_le_iff_le_sin hxIcc hy1Icc).mp hle
      linarith
  have hs0 : s ≠ 0 := ne_of_gt hs_pos
  unfold roundB
  rw [Real.arccos_eq_pi_div_two_sub_arcsin, round_eq]
  rw [show Real.arcsin (Real.sqrt (1 / (N : ℝ))) = s from rfl]
  have hkey : (Real.pi / 2 - s) / (2 * s) + 1 / 2 = Real.pi / (4 * s) := by
    field_simp
    ring
  rw [hkey]
  apply floor_eq_of_bounds _ (k : ℤ)
  · rw [show (((k : ℤ) : ℝ)) = (k : ℝ) by push_cast; rfl]
    rw [le_div_iff (by positivity)]
    rw [le_div_iff (by positivity)] at hsu
    nlinarith
  · rw [show (((k : ℤ) : ℝ) + 1) = (k : ℝ) + 1 by push_cast; rfl]
    rw [div_lt_iff (by positivity)]
    rw [div_lt_iff (by positivity)] at hsl
    nlinarith

lemma roundB_four : roundB 4 = 1 := by
  have h3 := Real.pi_gt_d4
  have h4 := Real.pi_lt_d4
  apply roundB_eq_of 4 1 (by norm_num) (by norm_num)
  · rw [show (((4:ℕ)):ℝ) = (4:ℝ) by norm_num]
    apply le_trans (sqrt_le_of_le_sq (c := 0.5) (by norm_num) (by norm_num))
    apply le_sin_of_le_mul (q := 0.617) (by positivity) (by nlinarith)
      (by nlinarith) (by nlinarith)
  · rw [show (((4:ℕ)):ℝ) = (4:ℝ) by norm_num]
    apply sin_lt_sqrt (by positivity) (by norm_num)
    nlinarith

lemma roundB_eight : roundB 8 = 2 := by
  have h3 := Real.pi_gt_d4
  have h4 := Real.pi_lt_d4
  apply roundB_eq_of 8 2 (by norm_num) (by norm_num)
  · rw [show (((8:ℕ)):ℝ) = (8:ℝ) by norm_num]
    apply le_trans (sqrt_le_of_le_sq (c := 0.3536) (by norm_num) (by norm_num))
    apply le_sin_of_le_mul (q := 0.1543) (by positivity) (by nlinarith)
      (by nlinarith) (by nlinarith)
  · rw [show (((8:ℕ)):ℝ) = (8:ℝ) by norm_num]
    apply sin_lt_sqrt (by positivity) (by norm_num)
    nlinarith

lemma roundB_sixteen : roundB 16 = 3 := by
  have h3 := Real.pi_gt_d4
  have h4 := Real.pi_lt_d4
  apply roundB_eq_of 16 3 (by norm_num) (by norm_num)
  · rw [show (((16:ℕ)):ℝ) = (16:ℝ) by norm_num]
    apply le_trans (sqrt_le_of_le_sq (c := 0.25) (by norm_num) (by norm_num))
    apply le_sin_of_le_mul (q := 0.0686) (by positivity) (by nlinarith)
      (by nlinarith) (by nlinarith)
  · rw [show (((16:ℕ)):ℝ) = (16:ℝ) by norm_num]
    apply sin_lt_sqrt (by positivity) (by norm_num)
    nlinarith

lemma roundB_thirtytwo : roundB 32 = 4 := by
  have h3 := Real.pi_gt_d4
  have h4 := Real.pi_lt_d4
  apply roundB_eq_of 32 4 (by norm_num) (by norm_num)
  · rw [show (((32:ℕ)):ℝ) = (32:ℝ) by norm_num]
    apply le_trans (sqrt_le_of_le_sq (c := 0.17678) (by norm_num) (by norm_num))
    apply le_sin_of_le_mul (q := 0.0386) (by positivity) (by nlinarith)
      (by nlinarith) (by nlinarith)
  · rw [show (((32:ℕ)):ℝ) = (32:ℝ) by norm_num]
    apply sin_lt_sqrt (by positivity) (by norm_num)
    nlinarith

lemma roundB_sixtyfour : roundB 64 = 6 := by
  have h3 := Real.pi_gt_d4
  have h4 := Real.pi_lt_d4
  apply roundB_eq_of 64 6 (by norm_num) (by norm_num)
  · rw [show (((64:ℕ)):ℝ) = (64:ℝ) by norm_num]
    apply le_trans (sqrt_le_of_le_sq (c := 0.125) (by norm_num) (by norm_num))
    apply le_sin_of_le_mul (q := 0.01714) (by positivity) (by nlinarith)
      (by nlinarith) (by nlinarith)
  · rw [show (((64:ℕ)):ℝ) = (64:ℝ) by norm_num]
    apply sin_lt_sqrt (by positivity) (by norm_num)
    nlinarith

lemma roundB_onetwentyeight : roundB 128 = 8 := by
  have h3 := Real.pi_gt_d4
  have h4 := Real.pi_lt_d4
  apply roundB_eq_of 128 8 (by norm_num) (by norm_num)
  · rw [show (((128:ℕ)):ℝ) = (128:ℝ) by norm_num]
    apply le_trans (sqrt_le_of_le_sq (c := 0.0884) (by norm_num) (by norm_num))
    apply le_sin_of_le_mul (q := 0.00965) (by positivity) (by nlinarith)
      (by nlinarith) (by nlinarith)
  · rw [show (((128:ℕ)):ℝ) = (128:ℝ) by norm_num]
    apply sin_lt_sqrt (by positivity) (by norm_num)
    nlinarith

/-- C7 counterexample: at `N = 4` the two iteration-count derivations
disagree — round-to-nearest of `π/4·√N` gives `2` while the
arccos/arcsin ratio rounds to `1` — and the program computes `1`, so it
does not agree with both. -/
theorem claim_C7_counterexample :
    roundA 4 = 2 ∧ roundB 4 = 1 ∧ iterations 4 = 1 :=
  ⟨roundA_four, roundB_four, iterations_four⟩

/-- C7 (amended): over `N ∈ {4, 8, 16, 32, 64, 128}` the two
iteration-count derivations agree at `8, 16, 32, 64` but differ (by
one) at `4` and `128`; the integer the program computes, the truncation
`floor(π/4·√N)`, agrees with the arccos/arcsin derivation at all six
sizes. -/
theorem claim_C7_amended :
    (roundA 8 = roundB 8 ∧ roundA 16 = roundB 16
      ∧ roundA 32 = roundB 32 ∧ roundA 64 = roundB 64)
    ∧ (iterations 4 = roundB 4 ∧ iterations 8 = roundB 8
      ∧ iterations 16 = roundB 16 ∧ iterations 32 = roundB 32
      ∧ iterations 64 = roundB 64 ∧ iterations 128 = roundB 128)
    ∧ roundA 4 ≠ roundB 4 ∧ roundA 128 ≠ roundB 128 := by
  refine ⟨⟨?_, ?_, ?_, ?_⟩, ⟨?_, ?_, ?_, ?_, ?_, ?_⟩, ?_, ?_⟩
  · rw [roundA_eight, roundB_eight]
  · rw [roundA_sixteen, roundB_sixteen]
  · rw [roundA_thirtytwo, roundB_thirtytwo]
  · rw [roundA_sixtyfour, roundB_sixtyfour]
  · rw [iterations_four, roundB_four]
  · rw [iterations_eight, roundB_eight]
  · rw [iterations_sixteen, roundB_sixteen]
  · rw [iterations_thirtytwo, roundB_thirtytwo]
  · rw [iterations_sixtyfour, roundB_sixtyfour]
  · rw [iterations_onetwentyeight, roundB_onetwentyeight]
  · rw [roundA_four, roundB_four]; decide
  · rw [roundA_onetwentyeight, roundB_onetwentyeight]; decide

lemma phaseFlip_mulVec {n : ℕ} (f : Bits n → Fin 2) (φ : Bits n → ℂ)
    (x : Bits n) :
    (phaseFlip n f).mulVec φ x = (-1) ^ (f x).val * φ x := by
  simp [phaseFlip, Matrix.mulVec, Matrix.dotProduct, Matrix.diagonal_apply,
    ite_mul, zero_mul, Finset.sum_ite_eq, Finset.mem_univ]

lemma sum_ite_marked {n : ℕ} (m : Bits n) (A B : ℂ) :
    (∑ x : Bits n, if x = m then A else B) = A + ((2:ℂ) ^ n - 1) * B := by
  have hsplit : ∀ x : Bits n,
      (if x = m then A else B) = B + (if x = m then A - B else 0) := by
    intro x
    by_cases hx : x = m <;> simp [hx]
  rw [Finset.sum_congr rfl fun x _ => hsplit x, Finset.sum_add_distrib,
    Finset.sum_const, Finset.sum_ite_eq' Finset.univ m fun _ => A - B,
    if_pos (Finset.mem_univ m)]
  have hcard : (Finset.univ : Finset (Bits n)).card = 2 ^ n := by
    rw [Finset.card_univ, Fintype.card_fun]
    simp
  rw [hcard, nsmul_eq_mul]
  push_cast
  ring

lemma twoVal_step (n : ℕ) (m : Bits n) (a b : ℚ) :
    (diffusion n * phaseFlip n (markedF m)).mulVec
        (fun x => (sqrt2C ^ n)⁻¹ * (((if x = m then a else b) : ℚ) : ℂ))
      = fun x => (sqrt2C ^ n)⁻¹ *
          (((if x = m then (abStep ((2:ℚ) ^ n) (a, b)).1
             else (abStep ((2:ℚ) ^ n) (a, b)).2) : ℚ) : ℂ) := by
  have hsf : (phaseFlip n (markedF m)).mulVec
      (fun x => (sqrt2C ^ n)⁻¹ * (((if x = m then a else b) : ℚ) : ℂ))
      = fun x => (sqrt2C ^ n)⁻¹ * (((if x = m then -a else b) : ℚ) : ℂ) := by
    funext x
    rw [phaseFlip_mulVec]
    by_cases hx : x = m <;> simp [markedF, hx]
  rw [← Matrix.mulVec_mulVec, hsf]
  funext x
  rw [diffusion_mulVec]
  have hsum : (∑ y : Bits n,
      (fun x => (sqrt2C ^ n)⁻¹ * (((if x = m then -a else b) : ℚ) : ℂ)) y)
      = (sqrt2C ^ n)⁻¹ * (((-a + ((2:ℚ) ^ n - 1) * b : ℚ)) : ℂ) := by
    simp only []
    rw [← Finset.mul_sum]
    congr 1
    rw [Finset.sum_congr rfl (fun y _ => apply_ite (fun q : ℚ => (q : ℂ))
      (y = m) (-a) b)]
    rw [sum_ite_marked]
    push_cast
    ring
  rw [hsum]
  have h2neC : ((2:ℂ) ^ n) ≠ 0 := by
    apply pow_ne_zero
    norm_num
  simp only [abStep]
  by_cases hx : x = m
  · simp only [hx, if_pos rfl]
    push_cast
    ring
  · simp only [if_neg hx]
    push_cast
    ring

lemma phi_twoVal (n : ℕ) (m : Bits n) (k : ℕ) :
    phiIter n (markedF m) k = fun x => (sqrt2C ^ n)⁻¹ *
      (((if x = m then (abIter ((2:ℚ) ^ n) k).1
         else (abIter ((2:ℚ) ^ n) k).2) : ℚ) : ℂ) := by
  induction k with
  | zero =>
    funext x
    show uniformVec n x = _
    by_cases hx : x = m <;> simp [uniformVec, abIter, hx]
  | succ k ih =>
    have hstep : phiIter n (markedF m) (k + 1)
        = (diffusion n * phaseFlip n (markedF m)).mulVec
            (phiIter n (markedF m) k) := by
      unfold phiIter
      rw [Function.iterate_succ_apply']
    rw [hstep, ih, twoVal_step]
    have habs : abIter ((2:ℚ) ^ n) (k + 1)
        = abStep ((2:ℚ) ^ n)
            ((abIter ((2:ℚ) ^ n) k).1, (abIter ((2:ℚ) ^ n) k).2) := rfl
    rw [habs]

lemma normSq_sqrt2C_pow_inv (n : ℕ) :
    Complex.normSq ((sqrt2C ^ n)⁻¹) = ((2:ℝ) ^ n)⁻¹ := by
  unfold sqrt2C
  rw [← Complex.ofReal_pow, ← Complex.ofReal_inv, Complex.normSq_ofReal]
  rw [← mul_inv]
  rw [show Real.sqrt 2 ^ n * Real.sqrt 2 ^ n = 2 ^ n by
    rw [← mul_pow, Real.mul_self_sqrt (by norm_num)]]

lemma normSq_minusVec (y : Fin 2) : Complex.normSq (minusVec y) = 1 / 2 := by
  have h2 : Complex.normSq sqrt2C = 2 := by
    unfold sqrt2C
    rw [Complex.normSq_ofReal, Real.mul_self_sqrt (by norm_num)]
  fin_cases y <;>
    simp [minusVec, div_eq_mul_inv, Complex.normSq_mul, Complex.normSq_inv,
      h2]

lemma normSq_ratCast (q : ℚ) : Complex.normSq ((q : ℚ) : ℂ) = ((q : ℝ)) ^ 2 := by
  rw [← Complex.ofReal_ratCast, Complex.normSq_ofReal, sq]

lemma prob_psiFinal_formula {n : ℕ} (m : Bits n) (r : ℕ) (a b : ℚ)
    (hr : iterationsNat (2 ^ n) = r)
    (hab : abIter ((2:ℚ) ^ n) r = (a, b)) (p : Bits n × Fin 2) :
    prob (psiFinal n (markedF m)) p
      = (if p.1 = m then ((a : ℝ)) ^ 2 else ((b : ℝ)) ^ 2) / 2 ^ (n + 1) := by
  unfold psiFinal prob
  rw [hr, psiAfter_factor, phi_twoVal, hab]
  simp only []
  rw [Complex.normSq_mul, Complex.normSq_mul, normSq_sqrt2C_pow_inv,
    normSq_minusVec]
  by_cases hp : p.1 = m
  · rw [if_pos hp, if_pos hp, normSq_ratCast]
    rw [pow_succ]
    ring
  · rw [if_neg hp, if_neg hp, normSq_ratCast]
    rw [pow_succ]
    ring

lemma max_analysis {n : ℕ} (m : Bits n) (α β : ℝ) (hβα : β < α)
    (hform : ∀ p : Bits n × Fin 2,
      prob (psiFinal n (markedF m)) p
        = (if p.1 = m then α else β) / 2 ^ (n + 1)) :
    IsMaxProb (psiFinal n (markedF m)) (m, 0)
    ∧ (∀ w, IsMaxProb (psiFinal n (markedF m)) w → w.1 = m)
    ∧ stringProb (psiFinal n (markedF m)) m = α / 2 ^ n := by
  have hpow : (0:ℝ) < 2 ^ (n + 1) := by positivity
  have hco : ((m, (0:Fin 2)).1 = m) := rfl
  have hmax : IsMaxProb (psiFinal n (markedF m)) (m, 0) := by
    intro q
    rw [hform q, hform (m, 0), if_pos hco]
    gcongr
    by_cases hq : q.1 = m
    · rw [if_pos hq]
    · rw [if_neg hq]
      exact hβα.le
  refine ⟨hmax, fun w hw => ?_, ?_⟩
  · by_contra hwm
    have h1 := hw (m, 0)
    rw [hform (m, 0), hform w, if_pos hco, if_neg hwm] at h1
    have h2 := (div_le_div_iff hpow hpow).mp h1
    nlinarith
  · unfold stringProb
    rw [Fin.sum_univ_two, hform (m, 0), hform (m, 1), if_pos hco]
    rw [pow_succ]
    ring

lemma iterationsNat_four : iterationsNat 4 = 1 := by
  unfold iterationsNat
  rw [iterations_four]
  rfl

lemma iterationsNat_eight : iterationsNat 8 = 2 := by
  unfold iterationsNat
  rw [iterations_eight]
  rfl

lemma iterationsNat_sixteen : iterationsNat 16 = 3 := by
  unfold iterationsNat
  rw [iterations_sixteen]
  rfl

lemma iterationsNat_thirtytwo : iterationsNat 32 = 4 := by
  unfold iterationsNat
  rw [iterations_thirtytwo]
  rfl

lemma iterationsNat_sixtyfour : iterationsNat 64 = 6 := by
  unfold iterationsNat
  rw [iterations_sixtyfour]
  rfl

lemma iterationsNat_onetwentyeight : iterationsNat 128 = 8 := by
  unfold iterationsNat
  rw [iterations_onetwentyeight]
  rfl

lemma sqrtN_ge_one (n : ℕ) : 1 ≤ Real.sqrt (2 ^ n) := by
  rw [show (1:ℝ) = Real.sqrt 1 from (Real.sqrt_one).symm]
  apply Real.sqrt_le_sqrt
  exact one_le_pow₀ (by norm_num)

lemma sqrtN_pos (n : ℕ) : 0 < Real.sqrt (2 ^ n) :=
  lt_of_lt_of_le one_pos (sqrtN_ge_one n)

lemma xval_pos (n : ℕ) : 0 < (Real.sqrt (2 ^ n))⁻¹ :=
  inv_pos.mpr (sqrtN_pos n)

lemma xval_le_one (n : ℕ) : (Real.sqrt (2 ^ n))⁻¹ ≤ 1 :=
  inv_le_one_of_one_le₀ (sqrtN_ge_one n)

lemma alpha_sin (n : ℕ) : Real.sin (alpha n) = (Real.sqrt (2 ^ n))⁻¹ :=
  Real.sin_arcsin (by linarith [xval_pos n]) (xval_le_one n)

lemma alpha_sin_pos (n : ℕ) : 0 < Real.sin (alpha n) := by
  rw [alpha_sin]
  exact xval_pos n

lemma alpha_pos (n : ℕ) : 0 < alpha n :=
  Real.arcsin_pos.mpr (xval_pos n)

lemma alpha_cos (n : ℕ) :
    Real.cos (alpha n) = Real.sqrt (1 - ((Real.sqrt (2 ^ n))⁻¹) ^ 2) :=
  Real.cos_arcsin _

lemma xval_sq (n : ℕ) : ((Real.sqrt (2 ^ n))⁻¹) ^ 2 = ((2:ℝ) ^ n)⁻¹ := by
  rw [inv_pow, Real.sq_sqrt (by positivity)]

lemma alpha_cos_pos (n : ℕ) (hn : 1 ≤ n) : 0 < Real.cos (alpha n) := by
  rw [alpha_cos]
  apply Real.sqrt_pos.mpr
  rw [xval_sq]
  have h2 : (2:ℝ) ≤ (2:ℝ) ^ n := by
    calc (2:ℝ) = 2 ^ 1 := (pow_one 2).symm
    _ ≤ 2 ^ n := by
      apply pow_le_pow_right (by norm_num) hn
  have hinv : ((2:ℝ) ^ n)⁻¹ ≤ 2⁻¹ := by
    apply inv_le_inv_of_le (by norm_num) h2
  linarith

lemma hN_sin (n : ℕ) : ((2:ℝ) ^ n) = ((Real.sin (alpha n))⁻¹) ^ 2 := by
  rw [alpha_sin, inv_inv, Real.sq_sqrt (by positivity)]

lemma abIter_trig (n : ℕ) (hn : 1 ≤ n) (k : ℕ) :
    (((abIter ((2:ℚ) ^ n) k).1 : ℝ)
        = Real.sin ((2 * (k:ℝ) + 1) * alpha n) / Real.sin (alpha n))
    ∧ (((abIter ((2:ℚ) ^ n) k).2 : ℝ)
        = Real.cos ((2 * (k:ℝ) + 1) * alpha n) / Real.cos (alpha n)) := by
  have hs0 := (alpha_sin_pos n).ne'
  have hc0 := (alpha_cos_pos n hn).ne'
  induction k with
  | zero =>
    constructor
    · show ((1:ℚ):ℝ) = _
      rw [show (2 * ((0:ℕ):ℝ) + 1) * alpha n = alpha n by push_cast; ring]
      rw [div_self hs0]
      norm_num
    · show ((1:ℚ):ℝ) = _
      rw [show (2 * ((0:ℕ):ℝ) + 1) * alpha n = alpha n by push_cast; ring]
      rw [div_self hc0]
      norm_num
  | succ k ih =>
    obtain ⟨ih1, ih2⟩ := ih
    have hangle : (2 * (((k:ℕ):ℝ) + 1) + 1) * alpha n
        = (2 * ((k:ℕ):ℝ) + 1) * alpha n + 2 * alpha n := by ring
    have hP := Real.sin_sq_add_cos_sq (alpha n)
    constructor
    · show ((abStep ((2:ℚ) ^ n) (abIter ((2:ℚ) ^ n) k)).1 : ℝ) = _
      rw [abStep]
      push_cast
      rw [ih1, ih2, hN_sin n, hangle, Real.sin_add, Real.sin_two_mul,
        Real.cos_two_mul]
      field_simp
      linear_combination
        (-(2 * Real.sin (alpha n) ^ 4 * Real.cos (alpha n)
              * Real.sin ((2 * (k:ℝ) + 1) * alpha n))
          - 2 * Real.sin (alpha n) ^ 5
              * Real.cos ((2 * (k:ℝ) + 1) * alpha n)) * hP
    · show ((abStep ((2:ℚ) ^ n) (abIter ((2:ℚ) ^ n) k)).2 : ℝ) = _
      rw [abStep]
      push_cast
      rw [ih1, ih2, hN_sin n, hangle, Real.cos_add, Real.sin_two_mul,
        Real.cos_two_mul]
      field_simp
      linear_combination
        (-(2 * Real.sin (alpha n) ^ 3 * Real.cos (alpha n) ^ 2
            * Real.cos ((2 * (k:ℝ) + 1) * alpha n))) * hP

lemma xval_ub (n : ℕ) (hn : 3 ≤ n) : (Real.sqrt (2 ^ n))⁻¹ ≤ 0.3536 := by
  have h8 : (8:ℝ) ≤ 2 ^ n := by
    calc (8:ℝ) = 2 ^ 3 := by norm_num
    _ ≤ 2 ^ n := by
      apply pow_le_pow_right₀ (by norm_num) hn
  have h28 : (2.8284:ℝ) ≤ Real.sqrt (2 ^ n) :=
    (Real.le_sqrt' (by norm_num)).mpr (by nlinarith)
  have hinv : (Real.sqrt (2 ^ n))⁻¹ ≤ (2.8284:ℝ)⁻¹ :=
    inv_anti₀ (by norm_num) h28
  have hnum : (2.8284:ℝ)⁻¹ ≤ 0.3536 := by norm_num
  linarith

lemma alpha_lb (n : ℕ) : (Real.sqrt (2 ^ n))⁻¹ < alpha n := by
  have h := Real.sin_lt (alpha_pos n)
  rw [alpha_sin] at h
  exact h

lemma alpha_ub (n : ℕ) (hn : 3 ≤ n) :
    alpha n ≤ (Real.sqrt (2 ^ n))⁻¹ + ((Real.sqrt (2 ^ n))⁻¹) ^ 3 := by
  set x := (Real.sqrt (2 ^ n))⁻¹ with hx
  have hx0 : 0 < x := xval_pos n
  have hxu : x ≤ 0.3536 := xval_ub n hn
  have hx2 : x ^ 2 ≤ 0.13 := by nlinarith
  have hy0 : 0 < x + x ^ 3 := by positivity
  have hy1 : x + x ^ 3 ≤ 1 := by nlinarith
  have ht : (1 + x ^ 2) ^ 3 ≤ 4 := by nlinarith [sq_nonneg x, sq_nonneg (x ^ 2)]
  have hexp : (x + x ^ 3) ^ 3 = x ^ 3 * (1 + x ^ 2) ^ 3 := by ring
  have hcube : (x + x ^ 3) ^ 3 ≤ 4 * x ^ 3 := by
    rw [hexp]
    calc x ^ 3 * (1 + x ^ 2) ^ 3 ≤ x ^ 3 * 4 :=
          mul_le_mul_of_nonneg_left ht (by positivity)
    _ = 4 * x ^ 3 := by ring
  have hsin : x ≤ Real.sin (x + x ^ 3) := by
    have h := Real.sin_gt_sub_cube hy0 hy1
    linarith
  have hyIcc : x + x ^ 3 ∈ Set.Icc (-(Real.pi / 2)) (Real.pi / 2) := by
    have hπ := Real.pi_gt_d4
    constructor
    · nlinarith
    · nlinarith
  exact (Real.arcsin_le_iff_le_sin ⟨by linarith, xval_le_one n⟩ hyIcc).mpr hsin

lemma r_bounds (n : ℕ) :
    Real.pi / 4 * Real.sqrt (2 ^ n) - 1 < ((iterationsNat (2 ^ n) : ℕ) : ℝ)
    ∧ ((iterationsNat (2 ^ n) : ℕ) : ℝ) ≤ Real.pi / 4 * Real.sqrt (2 ^ n) := by
  have hcast : (((2 ^ n : ℕ)) : ℝ) = (2:ℝ) ^ n := by push_cast; rfl
  have hv0 : (0:ℝ) ≤ Real.pi / 4 * Real.sqrt (((2 ^ n : ℕ)) : ℝ) := by positivity
  have hfl : (0:ℤ) ≤ iterations (2 ^ n) := by
    unfold iterations
    exact Int.floor_nonneg.mpr hv0
  have hIR : ((iterationsNat (2 ^ n) : ℕ) : ℝ)
      = ((iterations (2 ^ n) : ℤ) : ℝ) := by
    unfold iterationsNat
    rw [show ((((iterations (2 ^ n)).toNat : ℕ)) : ℝ)
        = (((((iterations (2 ^ n)).toNat : ℕ)) : ℤ) : ℝ) by push_cast; rfl]
    rw [Int.toNat_of_nonneg hfl]
  constructor
  · rw [hIR]
    unfold iterations
    rw [hcast]
    exact Int.sub_one_lt_floor _
  · rw [hIR]
    unfold iterations
    rw [hcast]
    exact Int.floor_le _

lemma sqrt_mul_xval (n : ℕ) : Real.sqrt (2 ^ n) * (Real.sqrt (2 ^ n))⁻¹ = 1 :=
  mul_inv_cancel₀ (sqrtN_pos n).ne'

lemma theta_lb (n : ℕ) (hn : 3 ≤ n) :
    Real.pi / 2 - (Real.sqrt (2 ^ n))⁻¹
      < (2 * ((iterationsNat (2 ^ n) : ℕ) : ℝ) + 1) * alpha n := by
  set x := (Real.sqrt (2 ^ n))⁻¹ with hxdef
  set s := Real.sqrt (2 ^ n) with hsdef
  set r := ((iterationsNat (2 ^ n) : ℕ) : ℝ) with hrdef
  have hx0 : 0 < x := xval_pos n
  have hxu : x ≤ 0.3536 := xval_ub n hn
  have hsx : s * x = 1 := sqrt_mul_xval n
  have hα := alpha_lb n
  have hα0 := alpha_pos n
  have hπ := Real.pi_gt_d4
  obtain ⟨hr1, _⟩ := r_bounds n
  have hs28 : (2.8:ℝ) ≤ s := by
    rcases le_or_lt (2.8:ℝ) s with h | h
    · exact h
    · exfalso
      have hs0 : 0 < s := sqrtN_pos n
      nlinarith
  have h2r : Real.pi * s / 2 - 1 < 2 * r + 1 := by nlinarith
  have hπs : 0 < Real.pi * s / 2 - 1 := by nlinarith
  have step1 : (Real.pi * s / 2 - 1) * x < (2 * r + 1) * x := by
    apply mul_lt_mul_of_pos_right h2r hx0
  have step2 : (2 * r + 1) * x < (2 * r + 1) * alpha n := by
    apply mul_lt_mul_of_pos_left hα
    nlinarith
  have step3 : (Real.pi * s / 2 - 1) * x = Real.pi / 2 * (s * x) - x := by ring
  rw [hsx] at step3
  nlinarith

lemma theta_ub (n : ℕ) (hn : 3 ≤ n) :
    (2 * ((iterationsNat (2 ^ n) : ℕ) : ℝ) + 1) * alpha n
      ≤ Real.pi / 2 + Real.pi * ((Real.sqrt (2 ^ n))⁻¹) ^ 2 / 2
        + (Real.sqrt (2 ^ n))⁻¹ + ((Real.sqrt (2 ^ n))⁻¹) ^ 3 := by
  set x := (Real.sqrt (2 ^ n))⁻¹ with hxdef
  set s := Real.sqrt (2 ^ n) with hsdef
  set r := ((iterationsNat (2 ^ n) : ℕ) : ℝ) with hrdef
  have hx0 : 0 < x := xval_pos n
  have hsx : s * x = 1 := sqrt_mul_xval n
  have hα0 := alpha_pos n
  have hαu := alpha_ub n hn
  have hπ := Real.pi_gt_d4
  obtain ⟨_, hr2⟩ := r_bounds n
  have hr0 : 0 ≤ r := Nat.cast_nonneg _
  have h2r : 2 * r + 1 ≤ Real.pi * s / 2 + 1 := by nlinarith
  have step1 : (2 * r + 1) * alpha n ≤ (Real.pi * s / 2 + 1) * alpha n := by
    apply mul_le_mul_of_nonneg_right h2r hα0.le
  have step2 : (Real.pi * s / 2 + 1) * alpha n
      ≤ (Real.pi * s / 2 + 1) * (x + x ^ 3) := by
    apply mul_le_mul_of_nonneg_left hαu
    nlinarith [sqrtN_pos n]
  have step3 : (Real.pi * s / 2 + 1) * (x + x ^ 3)
      = Real.pi / 2 * (s * x) + Real.pi / 2 * (s * x) * x ^ 2 + x + x ^ 3 := by
    ring
  rw [hsx] at step3
  nlinarith

set_option maxHeartbeats 1600000 in
lemma C1_general_bounds (n : ℕ) (hn : 3 ≤ n) :
    (((abIter ((2:ℚ) ^ n) (iterationsNat (2 ^ n))).2 : ℝ)) ^ 2
      < (((abIter ((2:ℚ) ^ n) (iterationsNat (2 ^ n))).1 : ℝ)) ^ 2
    ∧ (2:ℝ) ^ n
      < 2 * (((abIter ((2:ℚ) ^ n) (iterationsNat (2 ^ n))).1 : ℝ)) ^ 2 := by
  obtain ⟨h1, h2⟩ := abIter_trig n (by omega) (iterationsNat (2 ^ n))
  set x := (Real.sqrt (2 ^ n))⁻¹ with hxdef
  set θ := (2 * ((iterationsNat (2 ^ n) : ℕ) : ℝ) + 1) * alpha n with hθdef
  set δ := θ - Real.pi / 2 with hδdef
  have hx0 : 0 < x := xval_pos n
  have hxu : x ≤ 0.3536 := xval_ub n hn
  have hθl := theta_lb n hn
  have hθu := theta_ub n hn
  have hπl := Real.pi_gt_d4
  have hπu := Real.pi_lt_d4
  have hδl : -(0.3536:ℝ) < δ := by
    rw [hδdef]
    nlinarith
  have hδu : δ ≤ 0.5943 := by
    rw [hδdef]
    nlinarith
  have hδsq : δ ^ 2 ≤ 0.354 := by nlinarith
  have hθδ : θ = Real.pi / 2 + δ := by rw [hδdef]; ring
  have hsinθ : Real.sin θ = Real.cos δ := by
    rw [hθδ, Real.sin_add, Real.sin_pi_div_two, Real.cos_pi_div_two]
    ring
  have hcosθ : Real.cos θ = -Real.sin δ := by
    rw [hθδ, Real.cos_add, Real.sin_pi_div_two, Real.cos_pi_div_two]
    ring
  have hcosδ : (0.82:ℝ) ≤ Real.cos δ := by
    have h := Real.one_sub_sq_div_two_le_cos (x := δ)
    linarith
  have hsinδsq : Real.sin δ ^ 2 ≤ 0.354 :=
    le_trans Real.sin_sq_le_sq hδsq
  have hs2 : Real.sin (alpha n) ^ 2 = ((2:ℝ) ^ n)⁻¹ := by
    rw [alpha_sin, xval_sq]
  have hc2 : Real.cos (alpha n) ^ 2 = 1 - ((2:ℝ) ^ n)⁻¹ := by
    have hP := Real.sin_sq_add_cos_sq (alpha n)
    linarith
  have hN8 : (8:ℝ) ≤ 2 ^ n := by
    calc (8:ℝ) = 2 ^ 3 := by norm_num
    _ ≤ 2 ^ n := by
      apply pow_le_pow_right₀ (by norm_num) hn
  have hN0 : (0:ℝ) < 2 ^ n := by positivity
  have hNinv : ((2:ℝ) ^ n)⁻¹ ≤ 1 / 8 := by
    rw [show (1:ℝ)/8 = 8⁻¹ by norm_num]
    exact inv_anti₀ (by norm_num) hN8
  have hNinv0 : (0:ℝ) < ((2:ℝ) ^ n)⁻¹ := by positivity
  have hNN : ((2:ℝ) ^ n) * ((2:ℝ) ^ n)⁻¹ = 1 := mul_inv_cancel₀ hN0.ne'
  rw [h1, h2]
  have hsin2 : (0.67:ℝ) ≤ Real.sin θ ^ 2 := by
    rw [hsinθ]
    nlinarith
  have hcos2 : Real.cos θ ^ 2 ≤ 0.354 := by
    rw [hcosθ]
    nlinarith
  have hsα0 : Real.sin (alpha n) ≠ 0 := (alpha_sin_pos n).ne'
  have hcα0 : Real.cos (alpha n) ≠ 0 := (alpha_cos_pos n (by omega)).ne'
  constructor
  · rw [div_pow, div_pow]
    rw [div_lt_div_iff (by positivity) (by positivity)]
    rw [hs2, hc2]
    nlinarith
  · rw [div_pow, hs2, div_eq_mul_inv, inv_inv]
    nlinarith

lemma C1_case {n : ℕ} (m : Bits n) (r : ℕ) (a b : ℚ)
    (hr : iterationsNat (2 ^ n) = r)
    (hab : abIter ((2:ℚ) ^ n) r = (a, b))
    (hba : ((b : ℝ)) ^ 2 < ((a : ℝ)) ^ 2)
    (hgt : (2:ℝ) ^ n < 2 * ((a : ℝ)) ^ 2) :
    (∀ w, IsMaxProb (psiFinal n (markedF m)) w →
      markedF m (stripAncilla w) = 1
      ∧ 1 / 2 < stringProb (psiFinal n (markedF m)) (stripAncilla w))
    ∧ IsMaxProb (psiFinal n (markedF m)) (m, 0)
    ∧ prob (psiFinal n (markedF m)) (m, 0) = ((a : ℝ)) ^ 2 / 2 ^ (n + 1) := by
  have hβα : ((b : ℝ)) ^ 2 < ((a : ℝ)) ^ 2 := hba
  have hform := fun p => prob_psiFinal_formula m r a b hr hab p
  obtain ⟨hmax, hwin, hstr⟩ :=
    max_analysis m (((a : ℝ)) ^ 2) (((b : ℝ)) ^ 2) hβα hform
  refine ⟨fun w hw => ?_, hmax, ?_⟩
  · have hwm : w.1 = m := hwin w hw
    have hstrip : stripAncilla w = m := hwm
    rw [hstrip]
    constructor
    · simp [markedF]
    · rw [hstr]
      rw [lt_div_iff (by positivity)]
      nlinarith [hgt]
  · rw [hform (m, 0)]
    simp

set_option maxRecDepth 4000

/-- C1 (amended): for every `n ≥ 2` and every predicate marking exactly
one bit string `m`, every maximum-probability basis state of the final
pipeline state yields, after stripping the ancilla, a winning string
whose predicate value is `1`, and the probability of that winning
`n`-bit string — aggregated over the two ancilla values — exceeds
`0.5`.  (The probability of the single selected basis state itself
never exceeds `0.5`, because the ancilla in state `|−⟩` halves it; see
the counterexample.  At `n = 1` the final state is uniform and the
winner can fail the predicate.) -/
theorem claim_C1_amended (n : ℕ) (m : Bits n) (w : Bits n × Fin 2)
    (h2 : 2 ≤ n)
    (hmax : IsMaxProb (psiFinal n (markedF m)) w) :
    markedF m (stripAncilla w) = 1
    ∧ 1 / 2 < stringProb (psiFinal n (markedF m)) (stripAncilla w) := by
  rcases eq_or_lt_of_le h2 with h | h3
  · subst h
    exact (C1_case m 1 (abIter ((2:ℚ) ^ 2) 1).1 (abIter ((2:ℚ) ^ 2) 1).2
      (by rw [show (2 ^ 2 : ℕ) = 4 by norm_num]; exact iterationsNat_four)
      rfl (by norm_num [abIter, abStep]) (by norm_num [abIter, abStep])).1
      w hmax
  · obtain ⟨hba, hgt⟩ := C1_general_bounds n (by omega)
    exact (C1_case m (iterationsNat (2 ^ n))
      (abIter ((2:ℚ) ^ n) (iterationsNat (2 ^ n))).1
      (abIter ((2:ℚ) ^ n) (iterationsNat (2 ^ n))).2
      rfl rfl hba hgt).1 w hmax

lemma maxprob_n3_m5 :
    IsMaxProb (psiFinal 3 (markedF m5)) (m5, 0)
    ∧ prob (psiFinal 3 (markedF m5)) (m5, 0) = 121 / 256 := by
  have h := C1_case (n := 3) m5 2 (11/4) (-(1/4))
    (by rw [show (2 ^ 3 : ℕ) = 8 by norm_num]; exact iterationsNat_eight)
    (by norm_num [abIter, abStep]) (by norm_num) (by norm_num)
  refine ⟨h.2.1, ?_⟩
  rw [h.2.2]
  norm_num

/-- C1 counterexample: at `n = 3` with the predicate marking bit string
`101`, the maximum-probability basis state of the final pipeline state
has probability exactly `121/256 ≈ 0.47`, so the selected winner's
probability does not exceed `0.5` (the ancilla in `|−⟩` splits the
marked string's `121/128` across two basis states). -/
theorem claim_C1_counterexample :
    IsMaxProb (psiFinal 3 (markedF m5)) (m5, 0)
    ∧ prob (psiFinal 3 (markedF m5)) (m5, 0) = 121 / 256
    ∧ ¬ (1 / 2 < prob (psiFinal 3 (markedF m5)) (m5, 0)) := by
  refine ⟨maxprob_n3_m5.1, maxprob_n3_m5.2, ?_⟩
  rw [maxprob_n3_m5.2]
  norm_num

/-- C1 witness: the amended claim instantiated at `n = 3`, marked
string `101`, winner `(101, 0)`. -/
theorem claim_C1_amended_witness :
    ((2:ℕ) ≤ 3 ∧ IsMaxProb (psiFinal 3 (markedF m5)) (m5, 0))
    ∧ markedF m5 (stripAncilla ((m5, (0 : Fin 2)) : Bits 3 × Fin 2)) = 1
    ∧ 1 / 2 < stringProb (psiFinal 3 (markedF m5))
        (stripAncilla ((m5, (0 : Fin 2)) : Bits 3 × Fin 2)) := by
  have h := claim_C1_amended 3 m5 (m5, 0) (by norm_num) maxprob_n3_m5.1
  exact ⟨⟨by norm_num, maxprob_n3_m5.1⟩, h.1, h.2⟩

end QccGrover
